import Mathlib

/-!
Verification of the project-wide import scanner and fixer
(`DigitalWellbeing_Project/importloader.py`, class `ProjectImportAnalyzer`).

Strings are embedded as `List Char` (`PyStr`), matching Python's sequences of
code points; the Python string primitives the analyzer uses (`strip`,
`startswith`, `count`, `replace`, `split`, `join`, `<` on strings) are given
executable char-level definitions with Python's semantics.  Parse trees are
embedded as the multiset of AST nodes that `ast.walk` yields, flattened to a
list (`ProjectImportAnalyzer`'s extraction functions only pattern-match each
node's type, never its nesting, so the flat list is a faithful view).
-/

/-- Python strings as lists of code points. -/
abbrev PyStr := List Char

/-- Coerce a Lean string literal to the `PyStr` embedding. -/
def chars (s : String) : PyStr := s.data

/-- Python `str.startswith(pre)`: `pre` is a prefix of the string. -/
def pyStartsWith (s pre : PyStr) : Bool := List.isPrefixOf pre s

/-- Characters stripped by Python's `str.strip()` (ASCII whitespace). -/
def pySpace (c : Char) : Bool :=
  c == ' ' || c == '\t' || c == '\n' || c == '\r' || c == '\x0b' || c == '\x0c'

/-- Python `str.strip()`: drop whitespace from both ends. -/
def pyStrip (l : PyStr) : PyStr :=
  ((l.dropWhile pySpace).reverse.dropWhile pySpace).reverse

/-- Python `sep.join(parts)`. -/
def joinSep (sep : PyStr) : List PyStr → PyStr
  | [] => []
  | [p] => p
  | p :: ps => p ++ sep ++ joinSep sep ps

/-- Python `s.count('.')` (for a single-character pattern this is the number
of occurrences of that character). -/
def countDot (l : PyStr) : Nat := (l.filter (fun c => c == '.')).length

/-- Python `s.split('.')[0]`: the longest dot-free prefix. -/
def headComponent (l : PyStr) : PyStr := l.takeWhile (fun c => c != '.')

/-- Python `s.replace('.py', '')`: remove every non-overlapping occurrence of
the three-character pattern `.py`, scanning left to right.  This is the exact
semantics of the call in `path_to_module_name` (line 100 of the source). -/
def removePy : PyStr → PyStr
  | [] => []
  | [c] => [c]
  | [c, d] => [c, d]
  | c :: d :: e :: rest =>
    if c = '.' ∧ d = 'p' ∧ e = 'y' then removePy rest
    else c :: removePy (d :: e :: rest)

/-- Python string comparison `a < b`: lexicographic on code points. -/
def charListLt : PyStr → PyStr → Bool
  | _, [] => false
  | [], _ :: _ => true
  | a :: as, b :: bs =>
    if a.toNat < b.toNat then true
    else if b.toNat < a.toNat then false
    else charListLt as bs

/-- Python `a <= b` on strings. -/
def strLeB (a b : PyStr) : Bool := !(charListLt b a)

/-- Stable insertion into an ascending list (helper for `sortStrs`). -/
def insertSorted (a : PyStr) : List PyStr → List PyStr
  | [] => [a]
  | b :: bs => if strLeB a b then a :: b :: bs else b :: insertSorted a bs

/-- Python `sorted(...)` on a list of strings: ascending lexicographic. -/
def sortStrs (l : List PyStr) : List PyStr := l.foldr insertSorted []

/-- Distinct elements in first-occurrence order (dict-key order for the
`defaultdict`-based grouping in the source). -/
def dedupFirst : List PyStr → List PyStr
  | [] => []
  | x :: xs => x :: (dedupFirst xs).filter (fun y => y != x)

/-! ### The AST node model

One constructor per node shape that `ProjectImportAnalyzer`'s extraction
functions inspect.  `Import`/`ImportFrom` statements are flattened to one
node per alias (the source loops over `node.names`); an `ImportFrom` node
carries `node.module : Option` (`None` for `from . import x`, which the
source skips via the `if node.module:` truthiness test, which also rejects
an empty module string).  `attributeRootName id` stands for an
`ast.Attribute` node whose chased `value` chain ends in `ast.Name(id)`;
`nameLoad`/`nameStore` are `ast.Name` nodes in `Load`/`Store` context. -/

inductive PyNode where
  | functionDef (name : PyStr)
  | asyncFunctionDef (name : PyStr)
  | classDef (name : PyStr)
  | assignName (id : PyStr)
  | importAlias (name : PyStr) (asname : Option PyStr)
  | importFromAlias (module : Option PyStr) (name : PyStr) (asname : Option PyStr)
  | nameLoad (id : PyStr)
  | nameStore (id : PyStr)
  | attributeRootName (id : PyStr)
deriving DecidableEq

/-- Symbols an `Import`/`ImportFrom` alias contributes:
`alias.asname or alias.name.split('.')[0]` for `Import`,
`alias.asname or alias.name` for `ImportFrom` (skipped when `node.module`
is falsy).  Shared by `extract_defined_symbols`, `extract_used_symbols`'s
first loop and `get_current_imports`, whose import-handling code is
identical in the source (lines 119-127, 137-146, 196-205). -/
def importedOfNode : PyNode → List PyStr
  | .importAlias name asname => [asname.getD (headComponent name)]
  | .importFromAlias mod name asname =>
    match mod with
    | some m => if m = [] then [] else [asname.getD name]
    | none => []
  | _ => []

/-- Symbols a node defines (`extract_defined_symbols`'s per-node cases,
lines 108-127). -/
def definedOfNode : PyNode → List PyStr
  | .functionDef n => [n]
  | .asyncFunctionDef n => [n]
  | .classDef n => [n]
  | .assignName id => [id]
  | .importAlias name asname => [asname.getD (headComponent name)]
  | .importFromAlias mod name asname =>
    match mod with
    | some m => if m = [] then [] else [asname.getD name]
    | none => []
  | _ => []

/-- Root identifiers read by a node (`extract_used_symbols`'s second loop,
lines 149-159: `ast.Name` in `Load` context, and the root `Name` of an
`ast.Attribute` chain). -/
def loadRootsOfNode : PyNode → List PyStr
  | .nameLoad id => [id]
  | .attributeRootName id => [id]
  | _ => []

/-- `ProjectImportAnalyzer.extract_defined_symbols` (set semantics:
membership in the returned list). -/
def extract_defined_symbols (tree : List PyNode) : List PyStr :=
  tree.flatMap definedOfNode

/-- `ProjectImportAnalyzer.get_current_imports` (lines 192-207). -/
def get_current_imports (tree : List PyNode) : List PyStr :=
  tree.flatMap importedOfNode

/-- `ProjectImportAnalyzer.extract_used_symbols` (lines 131-161): first
collect imported symbols (the first loop is identical to
`get_current_imports`), then the used root identifiers excluding them. -/
def extract_used_symbols (tree : List PyNode) : List PyStr :=
  let imported := get_current_imports tree
  (tree.flatMap loadRootsOfNode).filter (fun s => decide (s ∉ imported))

/-- A discovered source file: its path components relative to the project
root, and its parse tree (`none` when `parse_file_safely` failed). -/
structure PyFile where
  relPath : List PyStr
  tree : Option (List PyNode)
deriving DecidableEq

/-- `ProjectImportAnalyzer.path_to_module_name` (lines 94-102): drop an
`__init__.py` final component, otherwise apply `replace('.py', '')` to it,
then join with `.` (empty list yields the empty string). -/
def path_to_module_name (parts : List PyStr) : PyStr :=
  match parts.getLast? with
  | none => []
  | some last =>
    let parts2 := if last = chars "__init__.py" then parts.dropLast
                  else parts.dropLast ++ [removePy last]
    if parts2 = [] then [] else joinSep ['.'] parts2

/-- The SymbolIndex built by `build_symbol_database` (lines 72-92):
`imports_map[symbol]` is the set of module names of parseable files whose
defined symbols contain `symbol`.  Rendered as the list of contributions in
file order; only membership is ever used (`set` semantics).  A symbol is a
key of the `defaultdict` iff this list is nonempty. -/
def importsMap (files : List PyFile) (symbol : PyStr) : List PyStr :=
  files.flatMap (fun f =>
    match f.tree with
    | none => []
    | some t =>
      if symbol ∈ extract_defined_symbols t then [path_to_module_name f.relPath] else [])

/-- `str(current_dir.relative_to(self.project_root)).replace('/', '.')`
(line 226): the dotted package of the consuming file's directory; `"."`
when the file sits directly in the project root (Python renders the empty
relative path as `'.'`). -/
def currentPackage (relPath : List PyStr) : PyStr :=
  match relPath.dropLast with
  | [] => ['.']
  | ds => joinSep ['.'] ds

/-- The per-candidate score of `choose_best_module` (lines 219-233):
+10 for a leading `.`, +5 when the candidate starts with the consuming
file's package string, −1 per `.` in the candidate. -/
def moduleScore (m pkg : PyStr) : Int :=
  (if pyStartsWith m ['.'] then (10 : Int) else 0)
  + (if pyStartsWith m pkg then (5 : Int) else 0)
  - (countDot m : Int)

/-- One comparison step of Python's `list.sort` on `(score, module)` pairs:
tuple order, i.e. by score then by module string. -/
def pairLtB (a b : Int × PyStr) : Bool :=
  decide (a.1 < b.1) || (decide (a.1 = b.1) && charListLt a.2 b.2)

/-- The larger of two scored candidates under the tuple order (the head of
a descending sort is the maximum under this order). -/
def betterPair (a b : Int × PyStr) : Int × PyStr :=
  if pairLtB a b then b else a

/-- `ProjectImportAnalyzer.choose_best_module` (lines 209-237): score every
candidate, `sort(reverse=True)` on `(score, module)` tuples and take the
head — i.e. the maximum scored pair under the tuple order; `None` for an
empty candidate set. -/
def choose_best_module (symbol : PyStr) (possible_modules : List PyStr)
    (currentFileRel : List PyStr) : Option PyStr :=
  match possible_modules.map
      (fun m => (moduleScore m (currentPackage currentFileRel), m)) with
  | [] => none
  | x :: xs => some ((xs.foldl betterPair x).2)

/-- The per-file body of `ProjectImportAnalyzer.analyze_missing_imports`
(lines 163-190): for each used symbol not currently imported and present as
a key of the SymbolIndex, resolve the best module and record the pair when
the resolution is truthy (not `None`, not the empty string). -/
def analyze_file (imap : PyStr → List PyStr) (f : PyFile) : List (PyStr × PyStr) :=
  match f.tree with
  | none => []
  | some t =>
    let current := get_current_imports t
    (extract_used_symbols t).filterMap (fun s =>
      if s ∉ current ∧ imap s ≠ [] then
        match choose_best_module s (imap s) f.relPath with
        | some m => if m ≠ [] then some (s, m) else none
        | none => none
      else none)

/-! ### The Fix Applier (`add_imports_to_file`, lines 299-340)

File contents are modelled as their list of lines (the source immediately
does `content.split('\n')` and writes back `'\n'.join(lines)`; neither the
original lines nor the synthesized import lines contain a newline). -/

/-- Stripped line starts with `import `, `from ` or `#` (line 311). -/
def lineIsImportOrComment (l : PyStr) : Bool :=
  pyStartsWith (pyStrip l) (chars "import ") ||
  pyStartsWith (pyStrip l) (chars "from ") ||
  pyStartsWith (pyStrip l) (chars "#")

/-- Stripped line starts with a triple-quote delimiter (line 313). -/
def lineIsDocstringDelim (l : PyStr) : Bool :=
  pyStartsWith (pyStrip l) (chars "\"\"\"") ||
  pyStartsWith (pyStrip l) (chars "\x27\x27\x27")

/-- The scanning loop of lines 308-314: `insert_line` starts at 0; an
import/comment line sets it to the line's index plus one; a non-blank line
that is not an import, not a comment and not a triple-quote opener breaks;
blank and triple-quote lines are skipped. -/
def findInsertLineGo : List PyStr → Nat → Nat → Nat
  | [], _, acc => acc
  | l :: ls, i, acc =>
    if lineIsImportOrComment l then findInsertLineGo ls (i + 1) (i + 1)
    else if !(pyStrip l).isEmpty && !(lineIsDocstringDelim l) then acc
    else findInsertLineGo ls (i + 1) acc

/-- The insertion index computed by `add_imports_to_file`. -/
def findInsertLine (lines : List PyStr) : Nat := findInsertLineGo lines 0 0

/-- The synthesized import lines (lines 316-328): group the missing pairs
by module, iterate modules in sorted order (`sorted(by_module.items())`
sorts the unique dict keys), and render `from M import s` for a singleton
group or `from M import s1, s2, ...` with the symbols sorted. -/
def genImportLines (missing : List (PyStr × PyStr)) : List PyStr :=
  (sortStrs (dedupFirst (missing.map Prod.snd))).map (fun m =>
    let syms := (missing.filter (fun p => p.2 == m)).map Prod.fst
    match syms with
    | [s] => chars "from " ++ m ++ chars " import " ++ s
    | _ => chars "from " ++ m ++ chars " import " ++ joinSep (chars ", ") (sortStrs syms))

/-- The pure rewrite performed by `add_imports_to_file` on the line list:
`lines[insert_line:insert_line] = new_imports` (line 331). -/
def add_imports_lines (lines : List PyStr) (missing : List (PyStr × PyStr)) : List PyStr :=
  lines.take (findInsertLine lines) ++ genImportLines missing
    ++ lines.drop (findInsertLine lines)

/-- Where an I/O exception, if any, is raised inside the `try` block of
`add_imports_to_file`: while reading the file, while opening it for
writing, or while writing the new content. -/
inductive WriteOutcome where
  | success
  | failAtRead
  | failAtOpenWrite
  | failDuringWrite
deriving DecidableEq

/-- `ProjectImportAnalyzer.add_imports_to_file` (lines 299-340) as a state
transformer on the file's content (its line list), returning the new
content and whether a failure was caught and reported.  A failure while
reading, or while opening for writing, leaves the content unchanged; but
`open(file_path, 'w')` truncates the file on success, so an exception
raised during the subsequent write leaves the file truncated (modelled as
fully truncated).  All exceptions are caught by the surrounding
`try`/`except` and reported (line 340). -/
def add_imports_to_file (content : List PyStr) (missing : List (PyStr × PyStr))
    (o : WriteOutcome) : List PyStr × Bool :=
  match o with
  | .failAtRead => (content, true)
  | .failAtOpenWrite => (content, true)
  | .failDuringWrite => ([], true)
  | .success => (add_imports_lines content missing, false)

/-- The loop of `apply_fixes` (lines 293-295): every file with missing
imports is rewritten in turn; `add_imports_to_file` catches its own
exceptions, so no outcome stops the loop. -/
def apply_fixes (jobs : List (List PyStr × List (PyStr × PyStr) × WriteOutcome)) :
    List (List PyStr × Bool) :=
  jobs.map (fun j => add_imports_to_file j.1 j.2.1 j.2.2)

/-- The AST aliases produced by re-parsing the synthesized import lines for
one file: `from M import s1, s2` yields one `ImportFrom` alias per symbol,
so one `importFromAlias` node per missing pair (grouping only changes how
aliases share a statement, not the alias multiset). -/
def fixNodes (missing : List (PyStr × PyStr)) : List PyNode :=
  missing.map (fun p => PyNode.importFromAlias (some p.2) p.1 none)

/-! ### Definitions taken from the specification's words (refinement
targets for the corrected claims; these are deliberately NOT translations
of the source). -/

/-- Modelled from the spec: the score formula exactly as §4.5 states it,
`10·[starts with '.'] + 5·[starts with the consumer's package prefix] − 1
per namespace separator`. -/
def specScore (m pkg : PyStr) : Int :=
  10 * (if pyStartsWith m ['.'] then (1 : Int) else 0)
  + 5 * (if pyStartsWith m pkg then (1 : Int) else 0)
  - (countDot m : Int)

/-- Modelled from the spec: the insertion-point rule exactly as the claim
states it — scanning from the top, an import/comment line moves the
insertion point past itself, a blank line is skipped, and any other
(non-blank, non-import, non-comment) line terminates the scan.  No special
case for triple-quote lines. -/
def specInsertLineGo : List PyStr → Nat → Nat → Nat
  | [], _, acc => acc
  | l :: ls, i, acc =>
    if lineIsImportOrComment l then specInsertLineGo ls (i + 1) (i + 1)
    else if !(pyStrip l).isEmpty then acc
    else specInsertLineGo ls (i + 1) acc

/-- Modelled from the spec: the claim's insertion point. -/
def specInsertLine (lines : List PyStr) : Nat := specInsertLineGo lines 0 0

/-- Modelled from the spec: strip the source-file extension `.py` from the
END of a file-name component only (the claim's "stripped from the end ...
no other part of the file name is altered"). -/
def stripPySuffix (l : PyStr) : PyStr :=
  if 3 ≤ l.length ∧ l.drop (l.length - 3) = chars ".py" then l.take (l.length - 3) else l

/-- Modelled from the spec: module-name derivation exactly as the claim
states it — extension stripped from the end, separators replaced by `.`,
`__init__.py` contributing its directory's dotted path. -/
def specModuleName (parts : List PyStr) : PyStr :=
  match parts.getLast? with
  | none => []
  | some last =>
    let parts2 := if last = chars "__init__.py" then parts.dropLast
                  else parts.dropLast ++ [stripPySuffix last]
    if parts2 = [] then [] else joinSep ['.'] parts2

/-- The per-file proviso of the AMENDED idempotence claim, relating a run-1
file to the same file after `apply_fixes` and re-parsing: a file with no
missing imports is untouched, and a rewritten file either fails to
re-parse or re-parses to its original nodes plus one `importFromAlias`
node per inserted pair.  This is an assumption, not a guarantee of the
program: the insertion scan advances past import-looking lines inside a
multi-line string, so the synthesized line can land inside a string
literal, after which the file re-parses WITHOUT the new aliases — its
node list unchanged — an outcome deliberately outside this relation and
the one that refutes the unamended claim (exhibited by the C9
counterexample below). -/
def RewriteRel (imap : PyStr → List PyStr) (f f' : PyFile) : Prop :=
  f'.relPath = f.relPath ∧
  (analyze_file imap f = [] → f' = f) ∧
  (analyze_file imap f ≠ [] →
    f'.tree = none ∨
    ∃ t, f.tree = some t ∧ f'.tree = some (t ++ fixNodes (analyze_file imap f)))

/-- A concrete two-file project for exercising the idempotence theorem:
`a.py` defines `helper`, `b.py` uses it without importing it. -/
def c9DemoA : PyFile := ⟨[chars "a.py"], some [PyNode.functionDef (chars "helper")]⟩

/-- The consumer file of the concrete idempotence project. -/
def c9DemoB : PyFile := ⟨[chars "b.py"], some [PyNode.nameLoad (chars "helper")]⟩

/-- The two-file project. -/
def c9DemoFiles : List PyFile := [c9DemoA, c9DemoB]

/-- `b.py` after the Applier inserted `from a import helper` and the file
was re-parsed. -/
def c9DemoB2 : PyFile :=
  ⟨[chars "b.py"], some ([PyNode.nameLoad (chars "helper")]
    ++ fixNodes (analyze_file (importsMap c9DemoFiles) c9DemoB))⟩

/-- The project after applying all fixes. -/
def c9DemoFiles2 : List PyFile := [c9DemoA, c9DemoB2]

/-! ### Order properties of the Python string / tuple comparison -/

theorem charToNat_inj {a b : Char} (h : a.toNat = b.toNat) : a = b := by
  have h2 := congrArg Char.ofNat h
  rwa [Char.ofNat_toNat, Char.ofNat_toNat] at h2

theorem charListLt_irrefl (l : PyStr) : charListLt l l = false := by
  induction l with
  | nil => rfl
  | cons a as ih => simp [charListLt, ih]

theorem charListLt_trans {a b c : PyStr} :
    charListLt a b = true → charListLt b c = true → charListLt a c = true := by
  induction a generalizing b c with
  | nil =>
    intro h₁ h₂
    cases b with
    | nil => simp [charListLt] at h₁
    | cons y ys =>
      cases c with
      | nil => simp [charListLt] at h₂
      | cons z zs => rfl
  | cons x xs ih =>
    intro h₁ h₂
    cases b with
    | nil => simp [charListLt] at h₁
    | cons y ys =>
      cases c with
      | nil => simp [charListLt] at h₂
      | cons z zs =>
        simp only [charListLt] at h₁ h₂ ⊢
        by_cases hxy : x.toNat < y.toNat
        · by_cases hyz : y.toNat < z.toNat
          · have hxz : x.toNat < z.toNat := by omega
            simp [hxz]
          · by_cases hzy : z.toNat < y.toNat
            · simp [hyz, hzy] at h₂
            · have hxz : x.toNat < z.toNat := by omega
              simp [hxz]
        · by_cases hyx : y.toNat < x.toNat
          · simp [hxy, hyx] at h₁
          · simp [hxy, hyx] at h₁
            by_cases hyz : y.toNat < z.toNat
            · have hxz : x.toNat < z.toNat := by omega
              simp [hxz]
            · by_cases hzy : z.toNat < y.toNat
              · simp [hyz, hzy] at h₂
              · simp [hyz, hzy] at h₂
                have hxz : ¬ x.toNat < z.toNat := by omega
                have hzx : ¬ z.toNat < x.toNat := by omega
                simp [hxz, hzx]
                exact ih h₁ h₂

theorem charListLt_conn {a b : PyStr} :
    charListLt a b = false → charListLt b a = false → a = b := by
  induction a generalizing b with
  | nil =>
    intro h₁ _
    cases b with
    | nil => rfl
    | cons y ys => simp [charListLt] at h₁
  | cons x xs ih =>
    intro h₁ h₂
    cases b with
    | nil => simp [charListLt] at h₂
    | cons y ys =>
      simp only [charListLt] at h₁ h₂
      by_cases hxy : x.toNat < y.toNat
      · simp [hxy] at h₁
      · by_cases hyx : y.toNat < x.toNat
        · simp [hyx] at h₂
        · simp [hxy, hyx] at h₁ h₂
          have hx : x = y := charToNat_inj (by omega)
          rw [hx, ih h₁ h₂]

theorem pairLtB_irrefl (a : Int × PyStr) : pairLtB a a = false := by
  simp [pairLtB, charListLt_irrefl]

theorem pairLtB_trans {a b c : Int × PyStr} (h₁ : pairLtB a b = true)
    (h₂ : pairLtB b c = true) : pairLtB a c = true := by
  simp only [pairLtB, Bool.or_eq_true, Bool.and_eq_true, decide_eq_true_eq] at h₁ h₂ ⊢
  rcases h₁ with h₁ | ⟨he₁, hl₁⟩ <;> rcases h₂ with h₂ | ⟨he₂, hl₂⟩
  · left; omega
  · left; omega
  · left; omega
  · right; exact ⟨by omega, charListLt_trans hl₁ hl₂⟩

theorem pairLtB_asymm {a b : Int × PyStr} (h : pairLtB a b = true) : pairLtB b a = false := by
  cases hc : pairLtB b a with
  | false => rfl
  | true => exact absurd (pairLtB_trans h hc) (by simp [pairLtB_irrefl])

theorem pairLtB_conn {a b : Int × PyStr} (h₁ : pairLtB a b = false)
    (h₂ : pairLtB b a = false) : a = b := by
  have hi : a.1 = b.1 := by
    rcases lt_trichotomy a.1 b.1 with h | h | h
    · simp [pairLtB, h] at h₁
    · exact h
    · simp [pairLtB, h] at h₂
  have hs : a.2 = b.2 := by
    have c₁ : charListLt a.2 b.2 = false := by
      cases hc : charListLt a.2 b.2 with
      | false => rfl
      | true => simp [pairLtB, hi, hc] at h₁
    have c₂ : charListLt b.2 a.2 = false := by
      cases hc : charListLt b.2 a.2 with
      | false => rfl
      | true => simp [pairLtB, hi, hc] at h₂
    exact charListLt_conn c₁ c₂
  exact Prod.ext hi hs

theorem pairLtB_ge_trans {a b c : Int × PyStr} (h₁ : pairLtB a b = false)
    (h₂ : pairLtB b c = false) : pairLtB a c = false := by
  cases hac : pairLtB a c with
  | false => rfl
  | true =>
    cases hcb : pairLtB c b with
    | true => rw [pairLtB_trans hac hcb] at h₁; cases h₁
    | false =>
      have : b = c := pairLtB_conn h₂ hcb
      rw [this] at h₁
      rw [hac] at h₁
      cases h₁

/-! ### The fold in `choose_best_module` computes the tuple-order maximum -/

theorem betterPair_cases (a b : Int × PyStr) : betterPair a b = a ∨ betterPair a b = b := by
  unfold betterPair
  split
  · right; rfl
  · left; rfl

theorem betterPair_ge_left (a b : Int × PyStr) : pairLtB (betterPair a b) a = false := by
  unfold betterPair
  split
  · next h => exact pairLtB_asymm h
  · exact pairLtB_irrefl a

theorem betterPair_ge_right (a b : Int × PyStr) : pairLtB (betterPair a b) b = false := by
  unfold betterPair
  split
  · exact pairLtB_irrefl b
  · next h => simpa using h

theorem foldl_betterPair_mem : ∀ (xs : List (Int × PyStr)) (x : Int × PyStr),
    xs.foldl betterPair x ∈ x :: xs := by
  intro xs
  induction xs with
  | nil => intro x; simp
  | cons b bs ih =>
    intro x
    simp only [List.foldl_cons]
    rcases betterPair_cases x b with hb' | hb' <;> rw [hb']
    · rcases List.mem_cons.mp (ih x) with h | h
      · rw [h]; exact List.mem_cons_self _ _
      · exact List.mem_cons_of_mem _ (List.mem_cons_of_mem _ h)
    · rcases List.mem_cons.mp (ih b) with h | h
      · rw [h]; exact List.mem_cons_of_mem _ (List.mem_cons_self _ _)
      · exact List.mem_cons_of_mem _ (List.mem_cons_of_mem _ h)

theorem foldl_betterPair_ub : ∀ (xs : List (Int × PyStr)) (x y : Int × PyStr),
    y ∈ x :: xs → pairLtB (xs.foldl betterPair x) y = false := by
  intro xs
  induction xs with
  | nil =>
    intro x y hy
    simp at hy
    rw [hy]
    exact pairLtB_irrefl x
  | cons b bs ih =>
    intro x y hy
    simp only [List.foldl_cons]
    rcases List.mem_cons.mp hy with heq | hy'
    · rw [heq]
      exact pairLtB_ge_trans
        (ih (betterPair x b) (betterPair x b) (List.mem_cons_self _ _))
        (betterPair_ge_left x b)
    · rcases List.mem_cons.mp hy' with heq | hy''
      · rw [heq]
        exact pairLtB_ge_trans
          (ih (betterPair x b) (betterPair x b) (List.mem_cons_self _ _))
          (betterPair_ge_right x b)
      · exact ih (betterPair x b) y (List.mem_cons_of_mem _ hy'')

/-! ### Resolver lemmas -/

theorem mem_scored {g : PyStr → Int} {mods : List PyStr} {p : Int × PyStr}
    (h : p ∈ mods.map (fun m => (g m, m))) : p.2 ∈ mods ∧ p.1 = g p.2 := by
  rcases List.mem_map.mp h with ⟨m, hm, he⟩
  rw [← he]
  exact ⟨hm, rfl⟩

theorem choose_best_module_some {symbol : PyStr} {mods : List PyStr} {rel : List PyStr}
    {m : PyStr} (h : choose_best_module symbol mods rel = some m) :
    m ∈ mods ∧ ∀ m' ∈ mods,
      pairLtB (moduleScore m (currentPackage rel), m)
        (moduleScore m' (currentPackage rel), m') = false := by
  unfold choose_best_module at h
  cases hmap : mods.map (fun m => (moduleScore m (currentPackage rel), m)) with
  | nil => rw [hmap] at h; cases h
  | cons x xs =>
    rw [hmap] at h
    have hr : (xs.foldl betterPair x).2 = m := Option.some.inj h
    have hmem : xs.foldl betterPair x ∈ x :: xs := foldl_betterPair_mem xs x
    rw [← hmap] at hmem
    have hshape := mem_scored hmem
    constructor
    · rw [← hr]; exact hshape.1
    · intro m' hm'
      have hm'' : (moduleScore m' (currentPackage rel), m') ∈ x :: xs := by
        have hin : (moduleScore m' (currentPackage rel), m') ∈
            mods.map (fun m => (moduleScore m (currentPackage rel), m)) :=
          List.mem_map.mpr ⟨m', hm', rfl⟩
        rw [hmap] at hin
        exact hin
      have hub := foldl_betterPair_ub xs x _ hm''
      have hfold : xs.foldl betterPair x = (moduleScore m (currentPackage rel), m) := by
        have h1 := hshape.2
        rw [hr] at h1
        calc xs.foldl betterPair x
            = ((xs.foldl betterPair x).1, (xs.foldl betterPair x).2) := rfl
          _ = (moduleScore m (currentPackage rel), m) := by rw [h1, hr]
      rw [← hfold]
      exact hub

theorem choose_best_module_mem {symbol : PyStr} {mods : List PyStr} {rel : List PyStr}
    {m : PyStr} (h : choose_best_module symbol mods rel = some m) : m ∈ mods :=
  (choose_best_module_some h).1

theorem foldl_betterPair_const (x : Int × PyStr) :
    ∀ xs : List (Int × PyStr), (∀ y ∈ xs, y = x) → xs.foldl betterPair x = x := by
  intro xs
  induction xs with
  | nil => intro _; rfl
  | cons b bs ih =>
    intro hall
    have hb : b = x := hall b (List.mem_cons_self _ _)
    simp only [List.foldl_cons, hb]
    have hxx : betterPair x x = x := by
      unfold betterPair; rw [pairLtB_irrefl]; simp
    rw [hxx]
    exact ih (fun y hy => hall y (List.mem_cons_of_mem _ hy))

theorem choose_best_module_const {symbol : PyStr} {mods : List PyStr} {rel : List PyStr}
    {c : PyStr} (hne : mods ≠ []) (hall : ∀ M ∈ mods, M = c) :
    choose_best_module symbol mods rel = some c := by
  cases mods with
  | nil => exact absurd rfl hne
  | cons m ms =>
    have hm : m = c := hall m (List.mem_cons_self _ _)
    unfold choose_best_module
    simp only [List.map_cons]
    have : (ms.map (fun m => (moduleScore m (currentPackage rel), m))).foldl betterPair
        (moduleScore m (currentPackage rel), m) = (moduleScore m (currentPackage rel), m) := by
      apply foldl_betterPair_const
      intro y hy
      have := mem_scored hy
      have h2 : y.2 = c := hall y.2 (List.mem_cons_of_mem _ this.1)
      have h3 : y = (moduleScore y.2 (currentPackage rel), y.2) := by
        rw [← this.2]
      rw [h3, h2, hm]
    rw [this, hm]

theorem foldMax_unique {x₁ x₂ : Int × PyStr} {xs₁ xs₂ : List (Int × PyStr)}
    (h : (x₁ :: xs₁).Perm (x₂ :: xs₂)) :
    xs₁.foldl betterPair x₁ = xs₂.foldl betterPair x₂ := by
  have m₁ := foldl_betterPair_mem xs₁ x₁
  have m₂ := foldl_betterPair_mem xs₂ x₂
  exact pairLtB_conn
    (foldl_betterPair_ub xs₁ x₁ _ (h.mem_iff.mpr m₂))
    (foldl_betterPair_ub xs₂ x₂ _ (h.mem_iff.mp m₁))

theorem choose_best_module_perm (symbol : PyStr) (rel : List PyStr)
    {l₁ l₂ : List PyStr} (h : l₁.Perm l₂) :
    choose_best_module symbol l₁ rel = choose_best_module symbol l₂ rel := by
  have hmap : (l₁.map (fun m => (moduleScore m (currentPackage rel), m))).Perm
      (l₂.map (fun m => (moduleScore m (currentPackage rel), m))) := h.map _
  unfold choose_best_module
  cases h₁ : l₁.map (fun m => (moduleScore m (currentPackage rel), m)) with
  | nil =>
    cases h₂ : l₂.map (fun m => (moduleScore m (currentPackage rel), m)) with
    | nil => rfl
    | cons b bs =>
      rw [h₁, h₂] at hmap
      exact absurd hmap.symm.eq_nil (List.cons_ne_nil b bs)
  | cons a as =>
    cases h₂ : l₂.map (fun m => (moduleScore m (currentPackage rel), m)) with
    | nil =>
      rw [h₁, h₂] at hmap
      exact absurd hmap.eq_nil (List.cons_ne_nil a as)
    | cons b bs =>
      rw [h₁, h₂] at hmap
      show some ((as.foldl betterPair a).2) = some ((bs.foldl betterPair b).2)
      rw [foldMax_unique hmap]

/-! ### Membership characterizations for the detector and the index -/

theorem mem_extract_used {t : List PyNode} {s : PyStr} :
    s ∈ extract_used_symbols t ↔
      s ∈ t.flatMap loadRootsOfNode ∧ s ∉ get_current_imports t := by
  simp [extract_used_symbols, List.mem_filter]

theorem mem_analyze_file {imap : PyStr → List PyStr} {f : PyFile} {s m : PyStr} :
    (s, m) ∈ analyze_file imap f ↔
      ∃ t, f.tree = some t ∧ s ∈ extract_used_symbols t ∧ s ∉ get_current_imports t ∧
        imap s ≠ [] ∧ choose_best_module s (imap s) f.relPath = some m ∧ m ≠ [] := by
  cases hf : f.tree with
  | none =>
    simp only [analyze_file, hf]
    constructor
    · intro h; cases h
    · rintro ⟨t, ht, -⟩; cases ht
  | some t =>
    simp only [analyze_file, hf]
    constructor
    · intro h
      rcases List.mem_filterMap.mp h with ⟨s', hs', he⟩
      by_cases h₁ : s' ∉ get_current_imports t ∧ imap s' ≠ []
      · rw [if_pos h₁] at he
        cases hc : choose_best_module s' (imap s') f.relPath with
        | none =>
          rw [hc] at he
          have he2 : (none : Option (PyStr × PyStr)) = some (s, m) := he
          cases he2
        | some m' =>
          rw [hc] at he
          have he2 : (if m' ≠ [] then some (s', m') else none) = some (s, m) := he
          by_cases h₂ : m' ≠ []
          · rw [if_pos h₂] at he2
            have hpair := Option.some.inj he2
            have hs'' : s' = s := congrArg Prod.fst hpair
            have hm'' : m' = m := congrArg Prod.snd hpair
            subst hs''
            subst hm''
            exact ⟨t, rfl, hs', h₁.1, h₁.2, hc, h₂⟩
          · rw [if_neg h₂] at he2; cases he2
      · rw [if_neg h₁] at he; cases he
    · rintro ⟨t', ht', hu, hcur, hne, hcb, hm⟩
      have htt : t = t' := Option.some.inj ht'
      rw [← htt] at hu hcur
      refine List.mem_filterMap.mpr ⟨s, hu, ?_⟩
      rw [if_pos ⟨hcur, hne⟩, hcb]
      show (if m ≠ [] then some (s, m) else none) = some (s, m)
      rw [if_pos hm]

theorem mem_importsMap {files : List PyFile} {s M : PyStr} :
    M ∈ importsMap files s ↔
      ∃ f ∈ files, ∃ t, f.tree = some t ∧ s ∈ extract_defined_symbols t ∧
        M = path_to_module_name f.relPath := by
  simp only [importsMap, List.mem_flatMap]
  constructor
  · rintro ⟨f, hf, hM⟩
    cases ht : f.tree with
    | none =>
      rw [ht] at hM
      have hM2 : M ∈ ([] : List PyStr) := hM
      cases hM2
    | some t =>
      rw [ht] at hM
      have hM2 : M ∈ (if s ∈ extract_defined_symbols t
          then [path_to_module_name f.relPath] else []) := hM
      by_cases hd : s ∈ extract_defined_symbols t
      · rw [if_pos hd] at hM2
        exact ⟨f, hf, t, ht, hd, List.mem_singleton.mp hM2⟩
      · rw [if_neg hd] at hM2; cases hM2
  · rintro ⟨f, hf, t, ht, hd, hM⟩
    refine ⟨f, hf, ?_⟩
    rw [ht]
    show M ∈ (if s ∈ extract_defined_symbols t then [path_to_module_name f.relPath] else [])
    rw [if_pos hd, hM]
    exact List.mem_singleton.mpr rfl

/-! ### The index and the detector ignore unparseable files -/

theorem importsMap_erase {files : List PyFile} {f : PyFile} (hf : f.tree = none)
    (s : PyStr) : importsMap files s = importsMap (files.erase f) s := by
  induction files with
  | nil => rfl
  | cons g gs ih =>
    rw [List.erase_cons]
    by_cases hg : g = f
    · rw [if_pos (by simp [hg])]
      rw [hg]
      simp only [importsMap, List.flatMap_cons, hf]
      rfl
    · rw [if_neg (by simp [hg])]
      simp only [importsMap, List.flatMap_cons]
      rw [show (gs.erase f).flatMap _ = importsMap (gs.erase f) s from rfl]
      rw [show gs.flatMap _ = importsMap gs s from rfl]
      rw [ih]

/-! ### Re-parsed synthesized imports -/

theorem loadRoots_fixNodes (fx : List (PyStr × PyStr)) :
    (fixNodes fx).flatMap loadRootsOfNode = [] := by
  induction fx with
  | nil => rfl
  | cons p ps ih =>
    have hstep : (fixNodes (p :: ps)).flatMap loadRootsOfNode =
        loadRootsOfNode (PyNode.importFromAlias (some p.2) p.1 none)
          ++ (fixNodes ps).flatMap loadRootsOfNode := rfl
    rw [hstep, ih]
    simp [loadRootsOfNode]

theorem mem_imported_fixNodes {fx : List (PyStr × PyStr)} {s M : PyStr}
    (h : (s, M) ∈ fx) (hM : M ≠ []) : s ∈ get_current_imports (fixNodes fx) := by
  simp only [get_current_imports, fixNodes, List.mem_flatMap]
  refine ⟨PyNode.importFromAlias (some M) s none, List.mem_map.mpr ⟨(s, M), h, rfl⟩, ?_⟩
  simp [importedOfNode, hM]

theorem mem_defined_fixNodes {fx : List (PyStr × PyStr)} {s : PyStr}
    (h : s ∈ extract_defined_symbols (fixNodes fx)) : ∃ M, (s, M) ∈ fx := by
  simp only [extract_defined_symbols, fixNodes, List.mem_flatMap] at h
  rcases h with ⟨nd, hnd, hs⟩
  rcases List.mem_map.mp hnd with ⟨p, hp, he⟩
  rw [← he] at hs
  by_cases hp2 : p.2 = []
  · simp [definedOfNode, hp2] at hs
  · simp [definedOfNode, hp2] at hs
    exact ⟨p.2, by rw [hs]; exact hp⟩

theorem forall₂_mem_right {α β : Type} {R : α → β → Prop} {l₁ : List α} {l₂ : List β}
    (h : List.Forall₂ R l₁ l₂) {b : β} (hb : b ∈ l₂) : ∃ a ∈ l₁, R a b := by
  induction h with
  | nil => cases hb
  | cons hr _ ih =>
    rcases List.mem_cons.mp hb with heq | hb'
    · exact ⟨_, List.mem_cons_self _ _, heq ▸ hr⟩
    · rcases ih hb' with ⟨a, ha, har⟩
      exact ⟨a, List.mem_cons_of_mem _ ha, har⟩

/-! ### `replace('.py', '')` versus stripping the trailing extension -/

theorem removePy_strip : ∀ (base : PyStr), '.' ∉ base →
    removePy (base ++ chars ".py") = base
  | [], _ => rfl
  | c :: cs, h => by
    have hc : c ≠ '.' := by
      intro hc
      exact h (by rw [hc]; exact List.mem_cons_self _ _)
    have hcs : '.' ∉ cs := fun hm => h (List.mem_cons_of_mem _ hm)
    have ih := removePy_strip cs hcs
    cases cs with
    | nil =>
      show removePy (c :: '.' :: 'p' :: ['y']) = [c]
      rw [removePy]
      rw [if_neg (by intro hk; exact hc hk.1)]
      rfl
    | cons d cs₂ =>
      cases cs₂ with
      | nil =>
        show removePy (c :: d :: '.' :: chars "py") = [c, d]
        rw [removePy]
        rw [if_neg (by intro hk; exact hc hk.1)]
        have ih2 : removePy (d :: '.' :: chars "py") = [d] := ih
        rw [ih2]
      | cons e cs₃ =>
        show removePy (c :: d :: e :: (cs₃ ++ chars ".py")) = c :: d :: e :: cs₃
        rw [removePy]
        rw [if_neg (by intro hk; exact hc hk.1)]
        have ih2 : removePy ((d :: e :: cs₃) ++ chars ".py") = d :: e :: cs₃ := ih
        rw [show ((d :: e :: cs₃) ++ chars ".py") = (d :: e :: (cs₃ ++ chars ".py")) from rfl] at ih2
        rw [ih2]

theorem stripPySuffix_append (base : PyStr) : stripPySuffix (base ++ chars ".py") = base := by
  have hlen : (base ++ chars ".py").length = base.length + 3 := by
    simp [chars]
  have hsub : (base ++ chars ".py").length - 3 = base.length := by omega
  unfold stripPySuffix
  rw [if_pos]
  · rw [hsub]
    have := List.take_left base (chars ".py")
    simpa using this
  · constructor
    · omega
    · rw [hsub]
      have := List.drop_left base (chars ".py")
      simpa using this

/-! ### Characterizing the Applier's insertion index -/

/-- A line at which the scanning loop of `add_imports_to_file` breaks:
non-blank, not an import/comment, not a triple-quote opener. -/
def lineTerminates (l : PyStr) : Bool :=
  !(lineIsImportOrComment l) && !(pyStrip l).isEmpty && !(lineIsDocstringDelim l)

/-- The index of the last import/comment line within the leading
non-terminated block, if any. -/
def lastImpIdx : List PyStr → Option Nat
  | [] => none
  | l :: ls =>
    if lineTerminates l then none
    else match lastImpIdx ls with
      | some j => some (j + 1)
      | none => if lineIsImportOrComment l then some 0 else none

theorem findInsertLineGo_eq : ∀ (ls : List PyStr) (i acc : Nat),
    findInsertLineGo ls i acc =
      match lastImpIdx ls with
      | some j => i + j + 1
      | none => acc := by
  intro ls
  induction ls with
  | nil => intro i acc; rfl
  | cons l ls ih =>
    intro i acc
    by_cases himp : lineIsImportOrComment l = true
    · have hterm : lineTerminates l = false := by
        simp [lineTerminates, himp]
      rw [show findInsertLineGo (l :: ls) i acc = findInsertLineGo ls (i + 1) (i + 1) from by
        simp [findInsertLineGo, himp]]
      rw [ih]
      simp only [lastImpIdx, hterm]
      cases hj : lastImpIdx ls with
      | some j => simp [hj]; omega
      | none => simp [hj, himp]
    · have himp' : lineIsImportOrComment l = false := by
        cases hx : lineIsImportOrComment l
        · rfl
        · exact absurd hx himp
      by_cases hrest : (!(pyStrip l).isEmpty && !(lineIsDocstringDelim l)) = true
      · have hterm : lineTerminates l = true := by
          simp only [lineTerminates, himp']
          simpa using hrest
        rw [show findInsertLineGo (l :: ls) i acc = acc from by
          simp [findInsertLineGo, himp', hrest]]
        simp [lastImpIdx, hterm]
      · have hterm : lineTerminates l = false := by
          simp only [lineTerminates, himp']
          simpa using hrest
        rw [show findInsertLineGo (l :: ls) i acc = findInsertLineGo ls (i + 1) acc from by
          simp [findInsertLineGo, himp', hrest]]
        rw [ih]
        simp only [lastImpIdx, hterm]
        cases hj : lastImpIdx ls with
        | some j => simp [hj]; omega
        | none => simp [hj, himp']

theorem bfalse {b : Bool} (h : ¬ b = true) : b = false := by
  cases b
  · rfl
  · exact absurd rfl h

theorem lastImpIdx_none_no_import : ∀ (ls : List PyStr), lastImpIdx ls = none →
    ∀ l ∈ ls.takeWhile (fun l => !(lineTerminates l)), lineIsImportOrComment l = false := by
  intro ls
  induction ls with
  | nil => intro _ l hl; cases hl
  | cons a as ih =>
    intro h l hl
    by_cases hterm : lineTerminates a = true
    · rw [List.takeWhile_cons, if_neg (by simp [hterm])] at hl
      cases hl
    · have hterm' := bfalse hterm
      rw [List.takeWhile_cons, if_pos (by simp [hterm'])] at hl
      simp only [lastImpIdx] at h
      rw [if_neg (by simp [hterm'])] at h
      cases hj : lastImpIdx as with
      | some j => rw [hj] at h; cases h
      | none =>
        rw [hj] at h
        by_cases himp : lineIsImportOrComment a = true
        · rw [if_pos himp] at h; cases h
        · have himp' := bfalse himp
          rcases List.mem_cons.mp hl with heq | hl'
          · rw [heq]; exact himp'
          · exact ih hj l hl'

theorem lastImpIdx_some_spec : ∀ (ls : List PyStr) (j : Nat), lastImpIdx ls = some j →
    j + 1 ≤ (ls.takeWhile (fun l => !(lineTerminates l))).length ∧
    (∀ l ∈ (ls.takeWhile (fun l => !(lineTerminates l))).drop (j + 1),
      lineIsImportOrComment l = false) ∧
    (∃ l, ((ls.takeWhile (fun l => !(lineTerminates l))).drop j).head? = some l ∧
      lineIsImportOrComment l = true) := by
  intro ls
  induction ls with
  | nil => intro j h; cases h
  | cons a as ih =>
    intro j h
    simp only [lastImpIdx] at h
    by_cases hterm : lineTerminates a = true
    · rw [if_pos hterm] at h; cases h
    · have hterm' := bfalse hterm
      have hpre : (a :: as).takeWhile (fun l => !(lineTerminates l)) =
          a :: as.takeWhile (fun l => !(lineTerminates l)) := by
        rw [List.takeWhile_cons, if_pos (by simp [hterm'])]
      rw [if_neg (by simp [hterm'])] at h
      cases hj : lastImpIdx as with
      | some j' =>
        rw [hj] at h
        have hjj : j = j' + 1 := (Option.some.inj h).symm
        rcases ih j' hj with ⟨ih1, ih2, ih3⟩
        subst hjj
        rw [hpre]
        refine ⟨by rw [List.length_cons]; omega, ?_, ?_⟩
        · intro l hl
          exact ih2 l hl
        · rcases ih3 with ⟨l, hl1, hl2⟩
          exact ⟨l, hl1, hl2⟩
      | none =>
        rw [hj] at h
        by_cases himp : lineIsImportOrComment a = true
        · rw [if_pos himp] at h
          have hj0 : j = 0 := (Option.some.inj h).symm
          subst hj0
          rw [hpre]
          refine ⟨by rw [List.length_cons]; omega, ?_, ?_⟩
          · intro l hl
            exact lastImpIdx_none_no_import as hj l hl
          · exact ⟨a, rfl, himp⟩
        · rw [if_neg himp] at h; cases h

/-! ### Claim theorems -/

/-- C1 (counterexample): the claim "a symbol that is locally defined or
locally imported in file F never appears in F's missing-import entries" is
false: in a one-file project whose file `a.py` defines `helper` and also
uses it, the Detector emits the entry `(helper, a)` for that very file —
the exclusion set of `analyze_missing_imports` is `current_imports` alone
and never consults the file's defined symbols. -/
theorem c1_counterexample :
    chars "helper" ∈ extract_defined_symbols
      [PyNode.functionDef (chars "helper"), PyNode.nameLoad (chars "helper")] ∧
    (chars "helper", chars "a") ∈
      analyze_file
        (importsMap [⟨[chars "a.py"],
          some [PyNode.functionDef (chars "helper"), PyNode.nameLoad (chars "helper")]⟩])
        ⟨[chars "a.py"],
          some [PyNode.functionDef (chars "helper"), PyNode.nameLoad (chars "helper")]⟩ := by
  constructor
  · decide
  · decide

/-- C1 (amended): a symbol that is locally IMPORTED in file F never appears
in F's missing-import entries; the Detector's exclusion set is
`currently_imported` alone, so locally defined but unimported symbols can
appear. -/
theorem c1_local_import_never_missing (imap : PyStr → List PyStr) (f : PyFile)
    (t : List PyNode) (s : PyStr) (ht : f.tree = some t)
    (hs : s ∈ get_current_imports t) :
    ∀ M, (s, M) ∉ analyze_file imap f := by
  intro M hmem
  rcases mem_analyze_file.mp hmem with ⟨t', ht', _, hcur, -⟩
  have htt : t = t' := Option.some.inj (ht ▸ ht')
  rw [← htt] at hcur
  exact hcur hs

/-- C1 witness: a file importing `helper` from module `a` and using it gets
no missing-import entry for `helper`. -/
theorem c1_witness :
    (chars "helper" ∈ get_current_imports
      [PyNode.importFromAlias (some (chars "a")) (chars "helper") none,
       PyNode.nameLoad (chars "helper")]) ∧
    (chars "helper", chars "a") ∉
      analyze_file
        (importsMap [⟨[chars "b.py"],
          some [PyNode.importFromAlias (some (chars "a")) (chars "helper") none,
                PyNode.nameLoad (chars "helper")]⟩])
        ⟨[chars "b.py"],
          some [PyNode.importFromAlias (some (chars "a")) (chars "helper") none,
                PyNode.nameLoad (chars "helper")]⟩ :=
  ⟨by decide,
   c1_local_import_never_missing _ _ _ (chars "helper") rfl (by decide) (chars "a")⟩

/-- C2: the Resolver assigns each candidate the score
`10·[starts with '.'] + 5·[starts with the consumer's package prefix] −
(number of '.' separators)` (the code's formula literally equals the
spec's), and on a non-empty candidate set it returns a candidate of maximal
score. -/
theorem c2_resolver_score_and_max :
    (∀ m pkg : PyStr, moduleScore m pkg = specScore m pkg) ∧
    (∀ (symbol : PyStr) (mods rel : List PyStr), mods ≠ [] →
      ∃ m, choose_best_module symbol mods rel = some m ∧ m ∈ mods ∧
        ∀ m' ∈ mods,
          moduleScore m' (currentPackage rel) ≤ moduleScore m (currentPackage rel)) := by
  constructor
  · intro m pkg
    unfold moduleScore specScore
    split_ifs <;> ring
  · intro symbol mods rel hne
    have hsome : ∃ m, choose_best_module symbol mods rel = some m := by
      cases hmods : mods with
      | nil => exact absurd hmods hne
      | cons m₀ ms =>
        unfold choose_best_module
        simp only [List.map_cons]
        exact ⟨_, rfl⟩
    rcases hsome with ⟨m, hm⟩
    rcases choose_best_module_some hm with ⟨hmem, hub⟩
    refine ⟨m, hm, hmem, ?_⟩
    intro m' hm'
    have hubm := hub m' hm'
    by_contra hlt
    push_neg at hlt
    have : pairLtB (moduleScore m (currentPackage rel), m)
        (moduleScore m' (currentPackage rel), m') = true := by
      simp [pairLtB, hlt]
    rw [this] at hubm
    cases hubm

/-- C2 witness: on the candidate set `{b, a}` for a root-level consumer the
Resolver returns a maximal-score candidate. -/
theorem c2_witness :
    (([chars "b", chars "a"] : List PyStr) ≠ []) ∧
    (∃ m, choose_best_module (chars "x") [chars "b", chars "a"] [chars "f.py"] = some m ∧
      m ∈ [chars "b", chars "a"] ∧
      ∀ m' ∈ [chars "b", chars "a"],
        moduleScore m' (currentPackage [chars "f.py"]) ≤
          moduleScore m (currentPackage [chars "f.py"])) :=
  ⟨by decide,
   c2_resolver_score_and_max.2 (chars "x") [chars "b", chars "a"] [chars "f.py"] (by decide)⟩

/-- C3: the Resolver is deterministic — its result is a function of the
candidate SET only: any two enumeration orders of the same candidates give
the same module (the fixed total order deciding ties is the tuple order on
`(score, name)`, i.e. descending lexicographic on equal scores). -/
theorem c3_resolver_deterministic (symbol : PyStr) (rel : List PyStr)
    (l₁ l₂ : List PyStr) (h : l₁.Perm l₂) :
    choose_best_module symbol l₁ rel = choose_best_module symbol l₂ rel :=
  choose_best_module_perm symbol rel h

/-- C3 witness: the two enumeration orders of `{a, b}` resolve alike. -/
theorem c3_witness :
    (([chars "a", chars "b"] : List PyStr).Perm [chars "b", chars "a"]) ∧
    choose_best_module (chars "x") [chars "a", chars "b"] [chars "f.py"] =
      choose_best_module (chars "x") [chars "b", chars "a"] [chars "f.py"] :=
  ⟨by decide,
   c3_resolver_deterministic (chars "x") [chars "f.py"] _ _ (by decide)⟩

/-- C4 (counterexample): the claim's scanning rule ("stops at the first
line that is non-blank, not an import, and not a comment") is not the
code's: a leading docstring line is non-blank, neither import nor comment,
yet the loop does not stop there.  On
`['\"\"\"doc\"\"\"', 'import os', 'x = 1']` the code inserts at index 2
while the claim's rule gives index 0. -/
theorem c4_counterexample :
    findInsertLine [chars "\"\"\"doc\"\"\"", chars "import os", chars "x = 1"] = 2 ∧
    specInsertLine [chars "\"\"\"doc\"\"\"", chars "import os", chars "x = 1"] = 0 := by
  constructor
  · decide
  · decide

/-- C4 (amended): the scan additionally skips triple-quote opener lines
(neither extending the run nor terminating it); the insertion index lies
within the leading block of non-terminating lines, no import/comment line
occurs at or after it inside that block, the line just before it (when the
index is positive) is an import/comment line, and every synthesized import
line is inserted exactly at that index. -/
theorem c4_insertion_point (lines : List PyStr) :
    findInsertLine lines ≤ (lines.takeWhile (fun l => !(lineTerminates l))).length ∧
    (∀ l ∈ (lines.takeWhile (fun l => !(lineTerminates l))).drop (findInsertLine lines),
      lineIsImportOrComment l = false) ∧
    (findInsertLine lines = 0 ∨
      ∃ l, ((lines.takeWhile (fun l => !(lineTerminates l))).drop
          (findInsertLine lines - 1)).head? = some l ∧
        lineIsImportOrComment l = true) ∧
    (∀ missing, add_imports_lines lines missing =
      lines.take (findInsertLine lines) ++ genImportLines missing
        ++ lines.drop (findInsertLine lines)) := by
  have hgo := findInsertLineGo_eq lines 0 0
  cases hj : lastImpIdx lines with
  | none =>
    have hk : findInsertLine lines = 0 := by
      rw [show findInsertLine lines = findInsertLineGo lines 0 0 from rfl, hgo, hj]
    refine ⟨by rw [hk]; exact Nat.zero_le _, ?_, Or.inl hk, fun missing => rfl⟩
    intro l hl
    rw [hk, List.drop_zero] at hl
    exact lastImpIdx_none_no_import lines hj l hl
  | some j =>
    have hk : findInsertLine lines = j + 1 := by
      rw [show findInsertLine lines = findInsertLineGo lines 0 0 from rfl, hgo, hj]
      show 0 + j + 1 = j + 1
      omega
    rcases lastImpIdx_some_spec lines j hj with ⟨h1, h2, h3⟩
    refine ⟨by rw [hk]; exact h1, ?_, Or.inr ?_, fun missing => rfl⟩
    · intro l hl
      rw [hk] at hl
      exact h2 l hl
    · rw [hk]
      simpa using h3

/-- C5 (counterexample): the per-file rewrite is NOT all-or-nothing:
`add_imports_to_file` writes via `open(file_path, 'w')`, which truncates
the file before the new content is written, so an I/O failure raised
during the write leaves the file neither unchanged nor fully rewritten
(here: truncated), even though the failure is caught and reported. -/
theorem c5_counterexample :
    (add_imports_to_file [chars "x = 1"] [(chars "helper", chars "a")]
      WriteOutcome.failDuringWrite).2 = true ∧
    (add_imports_to_file [chars "x = 1"] [(chars "helper", chars "a")]
      WriteOutcome.failDuringWrite).1 ≠ [chars "x = 1"] ∧
    (add_imports_to_file [chars "x = 1"] [(chars "helper", chars "a")]
      WriteOutcome.failDuringWrite).1 ≠
      (add_imports_to_file [chars "x = 1"] [(chars "helper", chars "a")]
        WriteOutcome.success).1 := by
  refine ⟨rfl, ?_, ?_⟩
  · decide
  · decide

/-- C5 (amended): a failure while reading or while opening for writing
leaves the file unchanged and is reported; a successful rewrite produces
exactly the original content with the synthesized lines inserted; but a
failure during the write itself may leave the file truncated.  A failure
in one file never prevents the processing of the remaining files: the
Applier's loop handles every file independently of the other files'
outcomes. -/
theorem c5_rewrite_outcomes :
    (∀ (content : List PyStr) (missing : List (PyStr × PyStr)),
      add_imports_to_file content missing WriteOutcome.failAtRead = (content, true) ∧
      add_imports_to_file content missing WriteOutcome.failAtOpenWrite = (content, true) ∧
      add_imports_to_file content missing WriteOutcome.success =
        (add_imports_lines content missing, false)) ∧
    (∀ (pre : List (List PyStr × List (PyStr × PyStr) × WriteOutcome)) (j) (post),
      apply_fixes (pre ++ j :: post) =
        apply_fixes pre ++ add_imports_to_file j.1 j.2.1 j.2.2 :: apply_fixes post) := by
  constructor
  · intro content missing
    exact ⟨rfl, rfl, rfl⟩
  · intro pre j post
    simp [apply_fixes]

/-- C6: the rewrite is non-destructive — the new line list is exactly the
original with the synthesized import lines inserted at the insertion index,
hence every original line survives in its original relative order (the
original is a sublist of the result) and every line of the result is either
an original line or a synthesized import line. -/
theorem c6_nondestructive_rewrite (lines : List PyStr) (missing : List (PyStr × PyStr)) :
    add_imports_lines lines missing =
      lines.take (findInsertLine lines) ++ genImportLines missing
        ++ lines.drop (findInsertLine lines) ∧
    lines.Sublist (add_imports_lines lines missing) ∧
    ∀ l ∈ add_imports_lines lines missing, l ∈ lines ∨ l ∈ genImportLines missing := by
  refine ⟨rfl, ?_, ?_⟩
  · show lines.Sublist (lines.take (findInsertLine lines) ++ genImportLines missing
      ++ lines.drop (findInsertLine lines))
    have hsub : (lines.take (findInsertLine lines)
        ++ lines.drop (findInsertLine lines)).Sublist
        (lines.take (findInsertLine lines)
          ++ (genImportLines missing ++ lines.drop (findInsertLine lines))) :=
      List.Sublist.append_left (List.sublist_append_right _ _) _
    rw [List.take_append_drop] at hsub
    rw [List.append_assoc]
    exact hsub
  · intro l hl
    rcases List.mem_append.mp hl with h | h
    · rcases List.mem_append.mp h with h' | h'
      · exact Or.inl (List.take_subset _ _ h')
      · exact Or.inr h'
    · exact Or.inl (List.drop_subset _ _ h)

/-- C7 (counterexample): module-name derivation does not merely strip the
extension from the end: `replace('.py', '')` removes EVERY occurrence of
`.py` in the final path component, so the file `a.py.py` yields module
`a` where the claim's rule yields `a.py`. -/
theorem c7_counterexample :
    path_to_module_name [chars "a.py.py"] = chars "a" ∧
    specModuleName [chars "a.py.py"] = chars "a.py" ∧
    path_to_module_name [chars "a.py.py"] ≠ specModuleName [chars "a.py.py"] := by
  refine ⟨?_, ?_, ?_⟩
  · decide
  · decide
  · decide

/-- C7 (amended): for every discovered path whose final component is a
dot-free stem followed by the `.py` extension, the derived module name is
exactly the claim's — the relative path with the extension stripped from
the end and separators replaced by `.`, with `__init__.py` contributing
its directory's dotted path.  (In general the code removes every interior
occurrence of `.py` as well.) -/
theorem c7_module_name (pre : List PyStr) (base : PyStr) (h : '.' ∉ base) :
    path_to_module_name (pre ++ [base ++ chars ".py"]) =
      specModuleName (pre ++ [base ++ chars ".py"]) := by
  by_cases hinit : (base ++ chars ".py") = chars "__init__.py"
  · simp [path_to_module_name, specModuleName, hinit]
  · simp [path_to_module_name, specModuleName, hinit,
      removePy_strip base h, stripPySuffix_append base]

/-- C7 witness: `pkg/util.py` derives module `pkg.util` under both the code
and the claim's rule. -/
theorem c7_witness :
    ('.' ∉ chars "util") ∧
    path_to_module_name [chars "pkg", chars "util" ++ chars ".py"] =
      specModuleName [chars "pkg", chars "util" ++ chars ".py"] :=
  ⟨by decide, c7_module_name [chars "pkg"] (chars "util") (by decide)⟩

/-- C8: a file that fails to parse contributes nothing: it produces no
missing-import entries, the SymbolIndex is the same as if the file were
absent, and every other file's findings are unchanged when the failing file
is removed from the project. -/
theorem c8_parse_failure_isolated (files : List PyFile) (f : PyFile)
    (hmem : f ∈ files) (hnone : f.tree = none) :
    analyze_file (importsMap files) f = [] ∧
    (∀ s, importsMap files s = importsMap (files.erase f) s) ∧
    (∀ g ∈ files.erase f,
      analyze_file (importsMap files) g = analyze_file (importsMap (files.erase f)) g) := by
  refine ⟨?_, fun s => importsMap_erase hnone s, ?_⟩
  · simp [analyze_file, hnone]
  · intro g _
    have hfun : importsMap files = importsMap (files.erase f) :=
      funext (fun s => importsMap_erase hnone s)
    rw [hfun]

/-- C8 witness: a concrete two-file project with one unparseable file. -/
theorem c8_witness :
    ((⟨[chars "bad.py"], none⟩ : PyFile) ∈
      [(⟨[chars "bad.py"], none⟩ : PyFile),
       ⟨[chars "a.py"], some [PyNode.functionDef (chars "helper")]⟩]) ∧
    analyze_file
      (importsMap [(⟨[chars "bad.py"], none⟩ : PyFile),
        ⟨[chars "a.py"], some [PyNode.functionDef (chars "helper")]⟩])
      ⟨[chars "bad.py"], none⟩ = [] ∧
    importsMap [(⟨[chars "bad.py"], none⟩ : PyFile),
        ⟨[chars "a.py"], some [PyNode.functionDef (chars "helper")]⟩] (chars "helper") =
      importsMap ([(⟨[chars "bad.py"], none⟩ : PyFile),
        ⟨[chars "a.py"], some [PyNode.functionDef (chars "helper")]⟩].erase
          ⟨[chars "bad.py"], none⟩) (chars "helper") :=
  ⟨by decide,
   (c8_parse_failure_isolated _ _ (by decide) rfl).1,
   (c8_parse_failure_isolated _ _ (by decide) rfl).2.1 (chars "helper")⟩

/-- C10: a package-index file directly under the project root derives the
empty module name, and a symbol whose best-scoring candidate is the empty
string is never reported by the Detector (the truthiness test
`if best_module:` treats the empty selection as no selection), even when
the symbol has candidates in the SymbolIndex. -/
theorem c10_root_init_unreported :
    path_to_module_name [chars "__init__.py"] = [] ∧
    ∀ (imap : PyStr → List PyStr) (f : PyFile) (s : PyStr),
      imap s ≠ [] → choose_best_module s (imap s) f.relPath = some [] →
      ∀ M, (s, M) ∉ analyze_file imap f := by
  constructor
  · decide
  · intro imap f s _ hch M hmem
    rcases mem_analyze_file.mp hmem with ⟨t, ht, hu, hcur, hne, hcb, hM⟩
    rw [hch] at hcb
    exact hM (Option.some.inj hcb).symm

/-- C10 witness: the root `__init__.py` defines `helper`, `b.py` uses it;
the sole candidate is the empty module name and no entry is produced. -/
theorem c10_witness :
    (importsMap [(⟨[chars "__init__.py"], some [PyNode.functionDef (chars "helper")]⟩ : PyFile),
        ⟨[chars "b.py"], some [PyNode.nameLoad (chars "helper")]⟩] (chars "helper") ≠ []) ∧
    (choose_best_module (chars "helper")
      (importsMap [(⟨[chars "__init__.py"], some [PyNode.functionDef (chars "helper")]⟩ : PyFile),
        ⟨[chars "b.py"], some [PyNode.nameLoad (chars "helper")]⟩] (chars "helper"))
      [chars "b.py"] = some []) ∧
    (chars "helper", []) ∉
      analyze_file
        (importsMap [(⟨[chars "__init__.py"], some [PyNode.functionDef (chars "helper")]⟩ : PyFile),
          ⟨[chars "b.py"], some [PyNode.nameLoad (chars "helper")]⟩])
        ⟨[chars "b.py"], some [PyNode.nameLoad (chars "helper")]⟩ :=
  ⟨by decide, by decide,
   c10_root_init_unreported.2 _ ⟨[chars "b.py"], some [PyNode.nameLoad (chars "helper")]⟩
     (chars "helper") (by decide) (by decide) []⟩

/-! ### C9: idempotence of analyze-then-apply for unambiguous symbols -/

theorem used_append_fixNodes {t : List PyNode} {fx : List (PyStr × PyStr)} {s : PyStr}
    (h : s ∈ extract_used_symbols (t ++ fixNodes fx)) :
    s ∈ extract_used_symbols t ∧ s ∉ get_current_imports t := by
  rcases mem_extract_used.mp h with ⟨hload, himp⟩
  rw [List.flatMap_append, loadRoots_fixNodes, List.append_nil] at hload
  have himpt : s ∉ get_current_imports t := by
    intro hc
    refine himp ?_
    rw [get_current_imports, List.flatMap_append]
    exact List.mem_append.mpr (Or.inl hc)
  exact ⟨mem_extract_used.mpr ⟨hload, himpt⟩, himpt⟩

theorem imap_after_fixes_all_empty (files files' : List PyFile)
    (hrel : List.Forall₂ (RewriteRel (importsMap files)) files files')
    (s : PyStr) (hne : importsMap files s ≠ [])
    (hall : ∀ M ∈ importsMap files s, M = []) :
    ∀ M ∈ importsMap files' s, M = [] := by
  intro M hM
  rcases mem_importsMap.mp hM with ⟨g', hg', t', ht', hd, hMeq⟩
  rcases forall₂_mem_right hrel hg' with ⟨g, hg, hpath, hfix0, hfix1⟩
  by_cases hfx : analyze_file (importsMap files) g = []
  · have heq := hfix0 hfx
    have hmm : path_to_module_name g'.relPath ∈ importsMap files s := by
      refine mem_importsMap.mpr ⟨g', ?_, t', ht', hd, rfl⟩
      rw [heq]
      exact hg
    rw [hMeq]
    exact hall _ hmm
  · rcases hfix1 hfx with hnone | ⟨t, htg, htg'⟩
    · rw [ht'] at hnone; cases hnone
    · rw [ht'] at htg'
      have he : t' = t ++ fixNodes (analyze_file (importsMap files) g) :=
        Option.some.inj htg'
      rw [he, extract_defined_symbols, List.flatMap_append] at hd
      rcases List.mem_append.mp hd with hd1 | hd2
      · have hmm : path_to_module_name g.relPath ∈ importsMap files s :=
          mem_importsMap.mpr ⟨g, hg, t, htg, hd1, rfl⟩
        rw [hMeq, hpath]
        exact hall _ hmm
      · rcases mem_defined_fixNodes hd2 with ⟨M₂, hM₂⟩
        rcases mem_analyze_file.mp hM₂ with ⟨t₂, ht₂, hu₂, hc₂, hne₂, hcb₂, hM₂ne⟩
        have hconst : choose_best_module s (importsMap files s) g.relPath = some [] :=
          choose_best_module_const hne hall
        rw [hconst] at hcb₂
        exact absurd (Option.some.inj hcb₂).symm hM₂ne

/-- C9 (counterexample): idempotence fails on the real program when the
insertion point lands inside a multi-line string.  Take `a.py` defining
`helper` (the file `c9DemoA`) and a `b.py` whose TEXT is the four lines
`"""` / `import os` / `"""` / `helper()` — a module docstring mentioning
an import, then a use of `helper`.  Its parse tree is the node list of
`c9DemoB`, namely `[nameLoad helper]`: the docstring is a bare string
expression and contributes no analyzed nodes.  Run 1 gives `helper` the
single candidate module `a` and suggests exactly the fix `(helper, a)`
for `b.py`.  The Applier's scan skips the two triple-quote lines but
advances past the `import os` line INSIDE the docstring, so it inserts
`from a import helper` at line index 2 — strictly between the two `"""`
delimiters, i.e. into the string literal.  The rewritten text re-parses
successfully, but to the SAME node list (the inserted line is string
content, not a statement): the post-apply project is again
`[c9DemoA, c9DemoB]`, this reachable outcome falls outside `RewriteRel`,
and the re-run emits the entry `(helper, a)` once more — not zero entries
for a symbol whose candidate set had exactly one module, refuting the
claim as stated. -/
theorem c9_counterexample :
    importsMap c9DemoFiles (chars "helper") = [chars "a"] ∧
    analyze_file (importsMap c9DemoFiles) c9DemoB = [(chars "helper", chars "a")] ∧
    findInsertLine [chars "\"\"\"", chars "import os", chars "\"\"\"", chars "helper()"] = 2 ∧
    add_imports_lines [chars "\"\"\"", chars "import os", chars "\"\"\"", chars "helper()"]
        [(chars "helper", chars "a")] =
      [chars "\"\"\"", chars "import os", chars "from a import helper",
       chars "\"\"\"", chars "helper()"] ∧
    ¬ RewriteRel (importsMap c9DemoFiles) c9DemoB c9DemoB ∧
    (chars "helper", chars "a") ∈ analyze_file (importsMap c9DemoFiles) c9DemoB := by
  refine ⟨by decide, by decide, by decide, by decide, ?_, by decide⟩
  rintro ⟨-, -, h3⟩
  rcases h3 (by decide) with hnone | ⟨t, ht, ht'⟩
  · exact absurd hnone (by decide)
  · have hte : [PyNode.nameLoad (chars "helper")] = t := Option.some.inj ht
    subst hte
    exact absurd ht' (by decide)

/-- C9 (amended): analysis followed by applying all suggested fixes is
idempotent for unambiguous symbols PROVIDED every rewritten file either
fails to re-parse or re-parses to its original nodes plus the inserted
`from M import s` aliases — equivalently, provided no insertion point fell
inside a multi-line string literal (the reachable outcome refuting the
unamended claim).  The proviso is the `RewriteRel` hypothesis relating the
post-apply project `files'` to `files`; untouched files are unchanged.
If a symbol's candidate set in the run-1 SymbolIndex is non-empty and
contains a single module, then the re-run emits no missing-import entry
for that symbol in any file. -/
theorem c9_idempotent_after_fixes (files files' : List PyFile)
    (hrel : List.Forall₂ (RewriteRel (importsMap files)) files files')
    (s M₀ : PyStr) (hne : importsMap files s ≠ [])
    (huniq : ∀ M ∈ importsMap files s, M = M₀) :
    ∀ f' ∈ files', ∀ M, (s, M) ∉ analyze_file (importsMap files') f' := by
  intro f' hf' M hmem
  rcases mem_analyze_file.mp hmem with ⟨t', ht', hused, hcur, hne', hcb, hM⟩
  rcases forall₂_mem_right hrel hf' with ⟨f, hf, hpath, hfix0, hfix1⟩
  have hchoose : choose_best_module s (importsMap files s) f.relPath = some M₀ :=
    choose_best_module_const hne huniq
  by_cases hM₀ : M₀ = []
  · subst hM₀
    have hall' := imap_after_fixes_all_empty files files' hrel s hne huniq
    exact hM (hall' M (choose_best_module_mem hcb))
  · by_cases hfx : analyze_file (importsMap files) f = []
    · have heq := hfix0 hfx
      have hrun1 : (s, M₀) ∈ analyze_file (importsMap files) f :=
        mem_analyze_file.mpr ⟨t', by rw [← heq]; exact ht', hused, hcur, hne, hchoose, hM₀⟩
      rw [hfx] at hrun1
      cases hrun1
    · rcases hfix1 hfx with hnone | ⟨t, htf, htf'⟩
      · rw [ht'] at hnone; cases hnone
      · rw [ht'] at htf'
        have he : t' = t ++ fixNodes (analyze_file (importsMap files) f) :=
          Option.some.inj htf'
        by_cases hsfx : ∃ M₂, (s, M₂) ∈ analyze_file (importsMap files) f
        · rcases hsfx with ⟨M₂, hM₂⟩
          have hM₂ne : M₂ ≠ [] := by
            rcases mem_analyze_file.mp hM₂ with ⟨_, _, _, _, _, _, hx⟩
            exact hx
          have himp : s ∈ get_current_imports t' := by
            rw [he, get_current_imports, List.flatMap_append]
            exact List.mem_append.mpr (Or.inr (mem_imported_fixNodes hM₂ hM₂ne))
          exact (mem_extract_used.mp hused).2 himp
        · have hsplit : s ∈ extract_used_symbols t ∧ s ∉ get_current_imports t := by
            rw [he] at hused
            exact used_append_fixNodes hused
          have hrun1 : (s, M₀) ∈ analyze_file (importsMap files) f :=
            mem_analyze_file.mpr ⟨t, htf, hsplit.1, hsplit.2, hne, hchoose, hM₀⟩
          exact hsfx ⟨M₀, hrun1⟩

/-- C9 witness: in the concrete project, `helper`'s candidate set is the
single module `a`; after applying the one suggested fix and re-parsing,
the re-run emits no entry for `helper` in the rewritten file. -/
theorem c9_witness :
    (importsMap c9DemoFiles (chars "helper") ≠ []) ∧
    (∀ M ∈ importsMap c9DemoFiles (chars "helper"), M = chars "a") ∧
    ((chars "helper", chars "a") ∉
      analyze_file (importsMap c9DemoFiles2) c9DemoB2) :=
  ⟨by decide, by decide,
   c9_idempotent_after_fixes c9DemoFiles c9DemoFiles2
     (by
       refine List.Forall₂.cons ⟨rfl, fun _ => rfl, fun h => absurd (by decide) h⟩
         (List.Forall₂.cons
           ⟨rfl, fun h => absurd h (by decide), fun _ =>
             Or.inr ⟨[PyNode.nameLoad (chars "helper")], rfl, rfl⟩⟩
           List.Forall₂.nil))
     (chars "helper") (chars "a") (by decide) (by decide)
     c9DemoB2 (by decide) (chars "a")⟩
